import Mathlib

/-!
Shallow embedding of the `codecks-tg-bot` project cache
(`codecks_data.py`, `codecks_api.py`, `codecks.py`) and proofs about it.

Modelling conventions:
* Python strings are `List Char` (ASCII; `str.lower` is `Char.toLower` mapped).
* JSON values / Python objects decoded from JSON are the inductive `JVal`.
* Python dicts are association lists with unique keys (`List (List Char × JVal)`),
  in insertion order; `dict.update` and item assignment are embedded below.
* A raised Python exception is `none` in an `Option` result, or a `false`
  "completed normally" flag where the code mutates state before raising.
* Timestamps (`datetime.datetime` values and their ISO-8601 renderings, which
  order identically) are seconds since the Unix epoch, as `Int`.
-/

namespace CodecksBot

/-- JSON-decoded Python value. -/
inductive JVal : Type where
  | jnull : JVal
  | jbool : Bool → JVal
  | jnum : Int → JVal
  | jstr : List Char → JVal
  | jarr : List JVal → JVal
  | jdict : List (List Char × JVal) → JVal

instance : Inhabited JVal := ⟨.jnull⟩

mutual

/-- Size measure for `JVal`, used as fuel for the equality test. -/
def jvalSize : JVal → Nat
  | .jnull => 1
  | .jbool _ => 1
  | .jnum _ => 1
  | .jstr _ => 1
  | .jarr xs => 1 + jvalArrSize xs
  | .jdict es => 1 + jvalDictSize es

def jvalArrSize : List JVal → Nat
  | [] => 0
  | x :: xs => 1 + jvalSize x + jvalArrSize xs

def jvalDictSize : List (List Char × JVal) → Nat
  | [] => 0
  | e :: es => 1 + jvalSize e.2 + jvalDictSize es

end

/-- Structural equality test on `JVal`, fuelled so that it is structurally
recursive on the fuel and therefore evaluates by kernel reduction.  This embeds
Python `==` as used in this code base (the values compared by the source are
strings and `None`, where Python `==` is structural). -/
def jvalBEqF : Nat → JVal → JVal → Bool
  | 0, _, _ => false
  | _ + 1, .jnull, .jnull => true
  | _ + 1, .jbool x, .jbool y => x == y
  | _ + 1, .jnum x, .jnum y => x == y
  | _ + 1, .jstr x, .jstr y => x == y
  | _ + 1, .jarr [], .jarr [] => true
  | n + 1, .jarr (x :: xs), .jarr (y :: ys) =>
      jvalBEqF n x y && jvalBEqF n (.jarr xs) (.jarr ys)
  | _ + 1, .jdict [], .jdict [] => true
  | n + 1, .jdict ((k1, v1) :: xs), .jdict ((k2, v2) :: ys) =>
      k1 == k2 && jvalBEqF n v1 v2 && jvalBEqF n (.jdict xs) (.jdict ys)
  | _ + 1, _, _ => false

theorem jvalBEqF_iff :
    ∀ n a b, jvalSize a < n → (jvalBEqF n a b = true ↔ a = b) := by
  intro n
  induction n with
  | zero => intro a b h; omega
  | succ n ih =>
    intro a b h
    match a, b with
    | .jnull, .jnull => simp [jvalBEqF]
    | .jbool x, .jbool y => simp [jvalBEqF]
    | .jnum x, .jnum y => simp [jvalBEqF]
    | .jstr x, .jstr y => simp [jvalBEqF]
    | .jarr [], .jarr [] => simp [jvalBEqF]
    | .jarr [], .jarr (y :: ys) => simp [jvalBEqF]
    | .jarr (x :: xs), .jarr [] => simp [jvalBEqF]
    | .jarr (x :: xs), .jarr (y :: ys) =>
        have hsz : jvalSize (JVal.jarr (x :: xs)) < n + 1 := h
        simp only [jvalSize, jvalArrSize] at hsz
        have hx : jvalSize x < n := by omega
        have hxs : jvalSize (JVal.jarr xs) < n := by
          simp only [jvalSize]; omega
        have h1 := ih x y hx
        have h2 := ih (.jarr xs) (.jarr ys) hxs
        simp only [jvalBEqF, Bool.and_eq_true, h1, h2]
        constructor
        · rintro ⟨rfl, h3⟩
          cases h3
          rfl
        · rintro h3
          cases h3
          exact ⟨rfl, rfl⟩
    | .jdict [], .jdict [] => simp [jvalBEqF]
    | .jdict [], .jdict (e :: es) => simp [jvalBEqF]
    | .jdict (e :: es), .jdict [] => simp [jvalBEqF]
    | .jdict ((k1, v1) :: xs), .jdict ((k2, v2) :: ys) =>
        have hsz : jvalSize (JVal.jdict ((k1, v1) :: xs)) < n + 1 := h
        simp only [jvalSize, jvalDictSize] at hsz
        have hv : jvalSize v1 < n := by omega
        have hxs : jvalSize (JVal.jdict xs) < n := by
          simp only [jvalSize]; omega
        have h1 := ih v1 v2 hv
        have h2 := ih (.jdict xs) (.jdict ys) hxs
        simp only [jvalBEqF, Bool.and_eq_true, h1, h2, beq_iff_eq]
        constructor
        · rintro ⟨⟨rfl, rfl⟩, h3⟩
          cases h3
          rfl
        · rintro h3
          cases h3
          exact ⟨⟨rfl, rfl⟩, rfl⟩
    | .jnull, .jbool _ | .jnull, .jnum _ | .jnull, .jstr _ | .jnull, .jarr _
    | .jnull, .jdict _ | .jbool _, .jnull | .jbool _, .jnum _
    | .jbool _, .jstr _ | .jbool _, .jarr _ | .jbool _, .jdict _
    | .jnum _, .jnull | .jnum _, .jbool _ | .jnum _, .jstr _
    | .jnum _, .jarr _ | .jnum _, .jdict _ | .jstr _, .jnull
    | .jstr _, .jbool _ | .jstr _, .jnum _ | .jstr _, .jarr _
    | .jstr _, .jdict _ | .jarr _, .jnull | .jarr _, .jbool _
    | .jarr _, .jnum _ | .jarr _, .jstr _ | .jarr _, .jdict _
    | .jdict _, .jnull | .jdict _, .jbool _ | .jdict _, .jnum _
    | .jdict _, .jstr _ | .jdict _, .jarr _ => simp [jvalBEqF]

/-- Python `==` on JSON values (see `jvalBEqF`). -/
def jvalBEq (a b : JVal) : Bool := jvalBEqF (jvalSize a + 1) a b

theorem jvalBEq_iff (a b : JVal) : jvalBEq a b = true ↔ a = b :=
  jvalBEqF_iff (jvalSize a + 1) a b (Nat.lt_succ_self _)

instance : DecidableEq JVal := fun a b =>
  decidable_of_iff (jvalBEq a b = true) (jvalBEq_iff a b)

/-- The type of `self.data` in `CodecksData`: a Python dict keyed by strings. -/
abbrev TopDict : Type := List (List Char × JVal)

/-- Python dict lookup `d[k]` / `d.get(k)`: value of the first entry with key `k`. -/
def dictLookup : TopDict → List Char → Option JVal
  | [], _ => none
  | e :: rest, k => if e.1 = k then some e.2 else dictLookup rest k

/-- Python `d.get(k, dflt)`. -/
def dictLookupD (d : TopDict) (k : List Char) (dflt : JVal) : JVal :=
  (dictLookup d k).getD dflt

/-- Python item assignment `d[k] = v`: replaces the value of an existing key in
place, otherwise appends the new key at the end (insertion order). -/
def dictSet (d : TopDict) (k : List Char) (v : JVal) : TopDict :=
  if (dictLookup d k).isSome then
    d.map (fun e => if e.1 = k then (k, v) else e)
  else
    d ++ [(k, v)]

/-- Python `d.update(p)` for a dict argument `p`: item-assigns every entry of
`p`, in order.  This is the merge on line 102 of `codecks_data.py`. -/
def dictUpdate (d p : TopDict) : TopDict :=
  p.foldl (fun acc e => dictSet acc e.1 e.2) d

/-- Python truthiness of a JSON-decoded value (`if response:`). -/
def jTruthy : JVal → Bool
  | .jnull => false
  | .jbool b => b
  | .jnum n => n != 0
  | .jstr s => !s.isEmpty
  | .jarr xs => !xs.isEmpty
  | .jdict es => !es.isEmpty

/-- Python `x.get(k, dflt)` on an arbitrary value: raises `AttributeError`
(`none`) unless `x` is a dict. -/
def jGetD : JVal → List Char → JVal → Option JVal
  | .jdict d, k, dflt => some (dictLookupD d k dflt)
  | _, _, _ => none

/-- Coercion used where Python requires a `str` (e.g. `.lower()`, `re.search`):
any other type raises (`none`). -/
def asStr : JVal → Option (List Char)
  | .jstr s => some s
  | _ => none

/-- Python `len(x)`: defined for `str`, `list` and `dict`, raises otherwise. -/
def pyLen : JVal → Option Nat
  | .jstr s => some s.length
  | .jarr xs => some xs.length
  | .jdict es => some es.length
  | _ => none

def cardKey : List Char := ['c', 'a', 'r', 'd']

def deckKey : List Char := ['d', 'e', 'c', 'k']

def titleKey : List Char := ['t', 'i', 't', 'l', 'e']

def idKey : List Char := ['i', 'd']

def deckIdKey : List Char := ['d', 'e', 'c', 'k', 'I', 'd']

def contentKey : List Char := ['c', 'o', 'n', 't', 'e', 'n', 't']

def activityKey : List Char := ['a', 'c', 't', 'i', 'v', 'i', 't', 'y']

def lastUpdateKey : List Char :=
  ['l', 'a', 's', 't', '_', 'u', 'p', 'd', 'a', 't', 'e']

/-! ### Strings: `str.lower` and the `in` substring test -/

/-- Python `str.lower()` (ASCII). -/
def pyLower (s : List Char) : List Char := s.map Char.toLower

/-- Does `hay` start with `nd`? -/
def listStarts : List Char → List Char → Bool
  | [], _ => true
  | _ :: _, [] => false
  | a :: as, b :: bs => a == b && listStarts as bs

/-- Python `nd in hay` for strings: contiguous substring test.
The empty string is a substring of every string. -/
def isSubstr (nd : List Char) : List Char → Bool
  | [] => nd.isEmpty
  | c :: rest => listStarts nd (c :: rest) || isSubstr nd rest

/-! ### Due dates: `DATE_REGEX` and `strptime`

`DATE_REGEX = r"\[\d{2}/\d{2}/\d{2}\]"` (line 15 of `codecks_data.py`) and the
parse format `"[%d/%m/%y]"` (lines 183 and 190). -/

/-- Attempt to match `DATE_REGEX` at the start of the string; on success
return the matched ten-character token and the remaining input. -/
def matchDateAt : List Char → Option (List Char × List Char)
  | '[' :: d1 :: d2 :: '/' :: m1 :: m2 :: '/' :: y1 :: y2 :: ']' :: rest =>
      if d1.isDigit && d2.isDigit && m1.isDigit && m2.isDigit
          && y1.isDigit && y2.isDigit then
        some (['[', d1, d2, '/', m1, m2, '/', y1, y2, ']'], rest)
      else none
  | _ => none

/-- Fuelled scan for `re.findall(DATE_REGEX, s)`: leftmost, non-overlapping
matches.  Each step consumes at least one character, so fuel `s.length`
(supplied by `dateFindall`) never runs out. -/
def dateFindallAux : Nat → List Char → List (List Char)
  | 0, _ => []
  | _ + 1, [] => []
  | n + 1, c :: rest =>
      match matchDateAt (c :: rest) with
      | some (tok, rest') => tok :: dateFindallAux n rest'
      | none => dateFindallAux n rest

/-- `re.findall(DATE_REGEX, s)`. -/
def dateFindall (s : List Char) : List (List Char) :=
  dateFindallAux s.length s

/-- Gregorian leap year. -/
def isLeapYear (y : Nat) : Bool :=
  y % 4 == 0 && (y % 100 != 0 || y % 400 == 0)

/-- Number of days in a month, as validated by `datetime.strptime`. -/
def daysInMonth (y m : Nat) : Nat :=
  if m = 2 then (if isLeapYear y then 29 else 28)
  else if m = 4 || m = 6 || m = 9 || m = 11 then 30
  else 31

/-- Days from the Unix epoch (1970-01-01) to the civil date `y-m-d`,
for years in the range produced by `%y` parsing (1969..2068). -/
def daysFromCivil (y m d : Nat) : Int :=
  let yAdj := if m ≤ 2 then y - 1 else y
  let era := yAdj / 400
  let yoe := yAdj % 400
  let mp := (m + 9) % 12
  let doy := (153 * mp + 2) / 5 + d - 1
  let doe := yoe * 365 + yoe / 4 - yoe / 100 + doy
  (↑(era * 146097 + doe) : Int) - 719468

/-- `datetime.datetime.strptime(tok, "[%d/%m/%y]")`, returned as seconds since
the epoch (the parsed datetime is midnight of the parsed date).  `none` models
the `ValueError` raised on an invalid date.  Python's `%y` maps `00..68` to
`2000..2068` and `69..99` to `1969..1999`. -/
def strptimeTok : List Char → Option Int
  | ['[', d1, d2, '/', m1, m2, '/', y1, y2, ']'] =>
      if d1.isDigit && d2.isDigit && m1.isDigit && m2.isDigit
          && y1.isDigit && y2.isDigit then
        let day := 10 * (d1.toNat - 48) + (d2.toNat - 48)
        let mon := 10 * (m1.toNat - 48) + (m2.toNat - 48)
        let yy := 10 * (y1.toNat - 48) + (y2.toNat - 48)
        let year := if yy ≤ 68 then 2000 + yy else 1900 + yy
        if 1 ≤ mon && mon ≤ 12 && 1 ≤ day && day ≤ daysInMonth year mon then
          some (daysFromCivil year mon day * 86400)
        else none
      else none
  | _ => none

/-! ### Remote Client (`codecks_api.py`, lines 97-168)

`make_request` issues the HTTP request inside a `try` block whose handlers
catch `Timeout`, `RequestException` and every other `Exception` and fall
through to `return None`.  `handle_response` returns `response.json()` on
status 200 and `None` for every other status.  A `json()` decode failure
raises, which the enclosing `except Exception` turns into `None` as well. -/

/-- Outcome of `requests.request(...)` as seen by `make_request`: either an
HTTP response (with `decoded = none` when `response.json()` would raise), or
one of the caught exception classes. -/
inductive HttpOutcome : Type where
  | httpResponse : Nat → Option JVal → HttpOutcome
  | timeoutExn : HttpOutcome
  | transportExn : HttpOutcome
  | otherExn : HttpOutcome

/-- `CodecksAPI.handle_response` (lines 124-168).  The outer `none` models an
exception raised while decoding the body of a 200 response; the inner value is
the function's return value (`response.json()` or `None`). -/
def handle_response (status : Nat) (decoded : Option JVal) :
    Option (Option JVal) :=
  if status = 200 then
    match decoded with
    | some j => some (some j)
    | none => none
  else
    some none

/-- `CodecksAPI.make_request` (lines 97-122): classify the transport outcome;
every exception is caught and becomes a `None` return. -/
def make_request : HttpOutcome → Option JVal
  | .httpResponse status decoded =>
      match handle_response status decoded with
      | some r => r
      | none => none
  | .timeoutExn => none
  | .transportExn => none
  | .otherExn => none

/-! ### `CodecksData.get_cards` (`codecks_data.py`, lines 136-162)

The snapshot is read under the data lock, then `card`/`deck` are checked with
`isinstance(_, dict)`; on failure the function logs and returns `[]`.  The
deck comprehension evaluates `deck_info.get("title", "").lower()` (raising
unless `deck_info` is a dict with a string title) and collects
`deck_info.get("id")`; the card comprehension keeps cards whose
`card_info.get("deckId")` is `in` the matched id list. -/

/-- The comprehension on lines 150-154: matched deck ids, in deck order.
`none` models an exception raised while evaluating the comprehension. -/
def matchingDecks (deckFilter : List Char) : List JVal → Option (List JVal)
  | [] => some []
  | di :: rest =>
      match jGetD di titleKey (.jstr []) with
      | none => none
      | some tv =>
        match asStr tv with
        | none => none
        | some title =>
          if isSubstr (pyLower deckFilter) (pyLower title) then
            match jGetD di idKey .jnull with
            | none => none
            | some idv =>
              match matchingDecks deckFilter rest with
              | none => none
              | some rest' => some (idv :: rest')
          else
            matchingDecks deckFilter rest

/-- The comprehension on lines 156-160: cards whose `deckId` is in `mds`. -/
def matchingCards (mds : List JVal) : List JVal → Option (List JVal)
  | [] => some []
  | ci :: rest =>
      match jGetD ci deckIdKey .jnull with
      | none => none
      | some dId =>
        if mds.any (fun x => jvalBEq dId x) then
          match matchingCards mds rest with
          | none => none
          | some rest' => some (ci :: rest')
        else
          matchingCards mds rest

/-- `CodecksData.get_cards` (lines 136-162).  `none` models a raised
exception; `some []` on the `isinstance` check failure is the explicit
`return []` of lines 144-148. -/
def get_cards (data : TopDict) (deckFilter : List Char) : Option (List JVal) :=
  let cards := dictLookupD data cardKey (.jdict [])
  let decks := dictLookupD data deckKey (.jdict [])
  match cards, decks with
  | .jdict cs, .jdict ds =>
      match matchingDecks deckFilter (ds.map Prod.snd) with
      | none => none
      | some mds => matchingCards mds (cs.map Prod.snd)
  | _, _ => some []

/-! ### `CodecksData.get_due_cards` (`codecks_data.py`, lines 168-194)

The list comprehension keeps cards whose content has a `DATE_REGEX` match
(`re.search` succeeds exactly when `re.findall` is non-empty) and pairs each
with its full match list.  The sort key (line 183) is
`strptime(x["matches"][0], "[%d/%m/%y]")` — the *textually first* match.
Python's `list.sort` is stable, and a stable sort is extensionally unique, so
it is embedded as `List.insertionSort` over precomputed keys (exactly how
`sort(key=...)` evaluates: one key per element, then a stable sort).  Line 190
re-evaluates the same `strptime` on the same token when filtering, which this
embedding shares rather than recomputes. -/

/-- An element of the `cards_with_due_dates` list: the Python dict
`{"card": card, "matches": re.findall(DATE_REGEX, card.get("content", ""))}`. -/
structure DueEntry : Type where
  card : JVal
  matchList : List (List Char)
deriving DecidableEq

/-- Lines 176-180: build `cards_with_due_dates` from `cards.values()`.
Raises (`none`) unless each card is a dict whose `content` is a string. -/
def dueEntries : List JVal → Option (List DueEntry)
  | [] => some []
  | c :: rest =>
      match jGetD c contentKey (.jstr []) with
      | none => none
      | some cv =>
        match asStr cv with
        | none => none
        | some content =>
          if (dateFindall content).isEmpty then
            dueEntries rest
          else
            match dueEntries rest with
            | none => none
            | some rest' =>
                some ({ card := c, matchList := dateFindall content } :: rest')

/-- Key computation of line 183: `strptime(x["matches"][0], "[%d/%m/%y]")`
for every list element, raising (`none`) on an empty match list
(`IndexError`) or an invalid date (`ValueError`). -/
def keyedEntries : List DueEntry → Option (List (Int × DueEntry))
  | [] => some []
  | e :: rest =>
      match e.matchList with
      | [] => none
      | m0 :: _ =>
        match strptimeTok m0 with
        | none => none
        | some k =>
          match keyedEntries rest with
          | none => none
          | some rest' => some ((k, e) :: rest')

/-- Sort order of line 182-184: ascending in the precomputed key. -/
def dueLe (a b : Int × DueEntry) : Prop := a.1 ≤ b.1

instance : DecidableRel dueLe := fun a b =>
  inferInstanceAs (Decidable (a.1 ≤ b.1))

instance : IsTotal (Int × DueEntry) dueLe :=
  ⟨fun a b => Int.le_total a.1 b.1⟩

instance : IsTrans (Int × DueEntry) dueLe :=
  ⟨fun _ _ _ h1 h2 => le_trans h1 h2⟩

/-- Lines 168-184 up to and including the sort: the sorted, keyed
`cards_with_due_dates` list.  (Line 174 also copies `deck` under the lock;
it is never used afterwards.) -/
def duePipeline (data : TopDict) : Option (List (Int × DueEntry)) :=
  match dictLookupD data cardKey (.jdict []) with
  | .jdict cs =>
      match dueEntries (cs.map Prod.snd) with
      | none => none
      | some es =>
        match keyedEntries es with
        | none => none
        | some ks => some (List.insertionSort dueLe ks)
  | _ => none

/-- `CodecksData.get_due_cards(days_ahead)` (lines 168-194), with `now` the
value of `datetime.datetime.now()` at the call (seconds).  The filter of
lines 186-192 runs only for `days_ahead > 0` and keeps entries whose first
match parses to at most `now + timedelta(days=days_ahead)`. -/
def get_due_cards (data : TopDict) (days_ahead : Int) (now : Int) :
    Option (List DueEntry) :=
  match duePipeline data with
  | none => none
  | some sorted =>
      let fin :=
        if 0 < days_ahead then
          sorted.filter (fun a => decide (a.1 ≤ now + days_ahead * 86400))
        else
          sorted
      some (fin.map Prod.snd)

/-! ### Refresh cycle state (`codecks_data.py`, lines 50-130)

`BotState` is the mutable state of a `CodecksData` object plus its on-disk
mirror file.  `last_update` is a timestamp: the source stores a
`datetime` initially and an ISO-8601 UTC string after the first advance;
both order exactly as the instants they denote, so the embedding uses the
instant (`Int` seconds).  A refresh cycle's interaction with the network is
the pair of oracle responses in `CycleEnv` (`None` for a failed request,
decoded JSON otherwise), plus the clock value `now1` read on line 118. -/

structure BotState : Type where
  data : TopDict
  last_update : Int
  mirror : Option (TopDict × Int)
deriving DecidableEq

structure CycleEnv : Type where
  historyResp : Option JVal
  cardsResp : Option JVal
  now1 : Int

/-- `CodecksData.save_project` (lines 50-70): stores `last_update` into the
data dict and rewrites the mirror file.  (The ISO-8601 string written by the
source is represented by the timestamp it denotes.) -/
def save_project (s : BotState) : BotState :=
  let d := dictSet s.data lastUpdateKey (.jnum s.last_update)
  { s with data := d, mirror := some (d, s.last_update) }

/-- `CodecksData.get_card_data` (lines 95-107).  The `Bool` is true when the
call completes without raising.  On a truthy dict response the source merges
with `self.data.update(response)` (line 102) and then, on line 103, evaluates
`self.save_project()` *without awaiting it*: the coroutine object is created
and discarded, the save never runs, so the mirror is unchanged.  A truthy
non-dict response makes `dict.update` raise `TypeError` (the payload is
decoded JSON, so the iterable-of-pairs calling convention does not arise). -/
def get_card_data (s : BotState) (resp : Option JVal) : BotState × Bool :=
  match resp with
  | none => (s, true)
  | some r =>
    if jTruthy r then
      match r with
      | .jdict p => ({ s with data := dictUpdate s.data p }, true)
      | _ => (s, false)
    else
      (s, true)

/-- `activity["card"]` for each activity (line 129): raises (`none`) unless
each element is a dict with a `card` key. -/
def activityCards : List JVal → Option (List JVal)
  | [] => some []
  | a :: rest =>
      match a with
      | .jdict d =>
        match dictLookup d cardKey with
        | none => none
        | some c =>
          match activityCards rest with
          | none => none
          | some cs => some (c :: cs)
      | _ => none

/-- `CodecksData.get_history_data` (lines 109-130), one refresh cycle.  The
`Bool` is true when the call completes without raising.  Note the order in
the source: on a truthy history response `last_update` is advanced to "now"
(lines 116-120) *before* any card fetch is attempted.  A falsy response
(failed or empty) leaves the state untouched.  Non-list/non-dict shapes of
the decoded response raise at the corresponding line (`.get`, `len`, or the
comprehension), after `last_update` has already been advanced. -/
def get_history_data (s : BotState) (env : CycleEnv) : BotState × Bool :=
  match env.historyResp with
  | none => (s, true)
  | some r =>
    if jTruthy r then
      let s1 := { s with last_update := env.now1 }
      match r with
      | .jdict rd =>
          match dictLookupD rd activityKey (.jarr []) with
          | .jarr acts =>
              if 0 < acts.length then
                match activityCards acts with
                | some _ => get_card_data s1 env.cardsResp
                | none => (s1, false)
              else
                (s1, true)
          | other =>
              match pyLen other with
              | some n => if 0 < n then (s1, false) else (s1, true)
              | none => (s1, false)
      | _ => (s1, false)
    else
      (s, true)

/-- The background refresher (`codecks.py`, lines 21-34): repeated cycles.
An exception propagating out of `get_history_data` kills the background
task, so the sequence stops at the first abnormal cycle. -/
def runCycles : BotState → List CycleEnv → BotState
  | s, [] => s
  | s, env :: rest =>
      match get_history_data s env with
      | (s', true) => runCycles s' rest
      | (s', false) => s'

/-- Python `isinstance(x, dict)`. -/
def isJDict : JVal → Bool
  | .jdict _ => true
  | _ => false

/-! ### Reader/writer interleaving model (for the isolation property)

Under `asyncio`, code between suspension points runs atomically.  Neither
critical section of `codecks_data.py` contains an `await`: the writer's
merge-and-install (lines 100-103: `self.data.update(response)` plus the
never-awaited `self.save_project()`) and the reader's copy (lines 140-143)
each execute as a single step.  The writer's network call and the reader's
post-copy computation happen outside the lock and touch no shared state.
An execution is any interleaving (`Shuffle`) of the writer's and the
reader's atomic blocks. -/

inductive RWEvent : Type where
  | fetchEv : RWEvent
  | mergeEv : RWEvent
  | copyEv : RWEvent
  | computeEv : RWEvent
deriving DecidableEq

/-- `Shuffle xs ys zs`: `zs` is an interleaving of `xs` and `ys`. -/
inductive Shuffle : List RWEvent → List RWEvent → List RWEvent → Prop where
  | nil : Shuffle [] [] []
  | left {x : RWEvent} {xs ys zs : List RWEvent} :
      Shuffle xs ys zs → Shuffle (x :: xs) ys (x :: zs)
  | right {y : RWEvent} {xs ys zs : List RWEvent} :
      Shuffle xs ys zs → Shuffle xs (y :: ys) (y :: zs)

/-- The refresh cycle's merge path: fetch outside the lock, then install
under the lock (lines 96 and 100-103). -/
def writerProg : List RWEvent := [.fetchEv, .mergeEv]

/-- A read accessor: copy under the lock, then compute outside it
(lines 140-162). -/
def readerProg : List RWEvent := [.copyEv, .computeEv]

/-- Execute an event list over the shared snapshot; `obs` is the reader's
copied snapshot once its copy step has run. -/
def execRW (p : TopDict) :
    TopDict → Option TopDict → List RWEvent → TopDict × Option TopDict
  | st, obs, [] => (st, obs)
  | st, obs, .mergeEv :: rest => execRW p (dictUpdate st p) obs rest
  | st, _obs, .copyEv :: rest => execRW p st (some st) rest
  | st, obs, .fetchEv :: rest => execRW p st obs rest
  | st, obs, .computeEv :: rest => execRW p st obs rest

/-- Does the reader's copy step precede the writer's merge step? -/
def copyBeforeMerge : List RWEvent → Bool
  | [] => false
  | .copyEv :: _ => true
  | .mergeEv :: _ => false
  | .fetchEv :: rest => copyBeforeMerge rest
  | .computeEv :: rest => copyBeforeMerge rest

theorem shuffle_two_two {a b c d : RWEvent} {tr : List RWEvent}
    (h : Shuffle [a, b] [c, d] tr) :
    tr = [a, b, c, d] ∨ tr = [a, c, b, d] ∨ tr = [a, c, d, b] ∨
    tr = [c, a, b, d] ∨ tr = [c, a, d, b] ∨ tr = [c, d, a, b] := by
  cases h with
  | left h1 =>
    cases h1 with
    | left h2 =>
      cases h2 with
      | right h3 =>
        cases h3 with
        | right h4 => cases h4; tauto
    | right h2 =>
      cases h2 with
      | left h3 =>
        cases h3 with
        | right h4 => cases h4; tauto
      | right h3 =>
        cases h3 with
        | left h4 => cases h4; tauto
  | right h1 =>
    cases h1 with
    | left h2 =>
      cases h2 with
      | left h3 =>
        cases h3 with
        | right h4 => cases h4; tauto
      | right h3 =>
        cases h3 with
        | left h4 => cases h4; tauto
    | right h2 =>
      cases h2 with
      | left h3 =>
        cases h3 with
        | left h4 => cases h4; tauto

/-! ### Association-list lemmas for `dict.update` -/

/-- First-of-two choice on `Option` (lookup in the merge, then in the base). -/
def optOr (a b : Option JVal) : Option JVal :=
  match a with
  | some v => some v
  | none => b

theorem dictLookup_eq_none (d : TopDict) (k : List Char)
    (h : ∀ e ∈ d, e.1 ≠ k) : dictLookup d k = none := by
  induction d with
  | nil => rfl
  | cons e rest ih =>
    have he := h e (by simp)
    simp only [dictLookup, if_neg he]
    exact ih fun e' he' => h e' (by simp [he'])

theorem not_mem_of_dictLookup_eq_none (d : TopDict) (k : List Char)
    (h : dictLookup d k = none) : ∀ e ∈ d, e.1 ≠ k := by
  induction d with
  | nil => simp
  | cons e rest ih =>
    intro e' he'
    simp only [dictLookup] at h
    by_cases hek : e.1 = k
    · simp [hek] at h
    · rcases List.mem_cons.mp he' with rfl | hmem
      · exact hek
      · exact ih (by simpa [hek] using h) e' hmem

theorem dictLookup_append (d1 d2 : TopDict) (k : List Char) :
    dictLookup (d1 ++ d2) k = optOr (dictLookup d1 k) (dictLookup d2 k) := by
  induction d1 with
  | nil => simp [dictLookup, optOr]
  | cons e rest ih =>
    by_cases hek : e.1 = k <;> simp [dictLookup, hek, ih, optOr]

theorem dictLookup_mapset (d : TopDict) (k : List Char) (v : JVal)
    (k' : List Char) :
    dictLookup (d.map (fun e => if e.1 = k then (k, v) else e)) k' =
      if k' = k then (if (dictLookup d k).isSome then some v else none)
      else dictLookup d k' := by
  induction d with
  | nil => simp [dictLookup]
  | cons e rest ih =>
    by_cases h1 : e.1 = k
    · by_cases h2 : k' = k
      · subst h2; simp [dictLookup, h1, List.map_cons]
      · have h3 : ¬ k = k' := fun hc => h2 hc.symm
        simp [dictLookup, h1, List.map_cons, h2, h3, ih]
    · by_cases h2 : e.1 = k'
      · have hkk : ¬ k' = k := fun hc => h1 (h2.trans hc)
        simp [dictLookup, h1, List.map_cons, h2, hkk]
      · simp [dictLookup, h1, List.map_cons, h2, ih]

theorem dictLookup_dictSet (d : TopDict) (k : List Char) (v : JVal)
    (k' : List Char) :
    dictLookup (dictSet d k v) k' =
      if k' = k then some v else dictLookup d k' := by
  unfold dictSet
  by_cases hs : (dictLookup d k).isSome
  · simp [hs, dictLookup_mapset]
  · rw [if_neg hs, dictLookup_append]
    by_cases h2 : k' = k
    · subst h2
      have : dictLookup d k' = none := by
        cases hl : dictLookup d k' with
        | none => rfl
        | some v' => rw [hl] at hs; simp at hs
      simp [this, optOr, dictLookup]
    · cases hl : dictLookup d k' with
      | none =>
        have h3 : ¬ k = k' := fun hc => h2 hc.symm
        simp [optOr, dictLookup, h2, h3]
      | some v' => simp [optOr, h2]

theorem dictLookup_dictUpdate (d p : TopDict) (k : List Char)
    (hp : (p.map Prod.fst).Nodup) :
    dictLookup (dictUpdate d p) k =
      optOr (dictLookup p k) (dictLookup d k) := by
  induction p generalizing d with
  | nil => simp [dictUpdate, dictLookup, optOr]
  | cons e rest ih =>
    obtain ⟨k0, v0⟩ := e
    simp only [List.map_cons, List.nodup_cons] at hp
    have hstep : dictUpdate d ((k0, v0) :: rest) =
        dictUpdate (dictSet d k0 v0) rest := rfl
    rw [hstep, ih (dictSet d k0 v0) hp.2]
    by_cases hk : k = k0
    · subst hk
      have hrest : dictLookup rest k = none :=
        dictLookup_eq_none rest k fun e' he' hc => by
          exact hp.1 (hc ▸ List.mem_map_of_mem Prod.fst he')
      simp [hrest, dictLookup, dictLookup_dictSet, optOr]
    · have hk' : ¬ k0 = k := fun hc => hk hc.symm
      simp [dictLookup, hk', dictLookup_dictSet, if_neg hk, optOr]

/-- All entries of `d` at key `k` carry the value `v`. -/
def keyAll (d : TopDict) (k : List Char) (v : JVal) : Prop :=
  ∀ e ∈ d, e.1 = k → e.2 = v

theorem keyAll_dictSet_same (d : TopDict) (k : List Char) (v : JVal) :
    keyAll (dictSet d k v) k v := by
  unfold dictSet
  by_cases hs : (dictLookup d k).isSome
  · rw [if_pos hs]
    intro e he hek
    rcases List.mem_map.mp he with ⟨e0, _, heq⟩
    by_cases h0 : e0.1 = k
    · rw [if_pos h0] at heq; rw [← heq]
    · rw [if_neg h0] at heq; rw [← heq] at hek; exact absurd hek h0
  · rw [if_neg hs]
    intro e he hek
    rcases List.mem_append.mp he with hmem | hmem
    · have : dictLookup d k = none := by
        cases hl : dictLookup d k with
        | none => rfl
        | some v' => rw [hl] at hs; simp at hs
      exact absurd hek (not_mem_of_dictLookup_eq_none d k this e hmem)
    · simp at hmem; subst hmem; rfl

theorem keyAll_dictSet_other (d : TopDict) (k0 k : List Char) (v0 v : JVal)
    (hne : k0 ≠ k) (h : keyAll d k v) : keyAll (dictSet d k0 v0) k v := by
  unfold dictSet
  by_cases hs : (dictLookup d k0).isSome
  · rw [if_pos hs]
    intro e he hek
    rcases List.mem_map.mp he with ⟨e0, hmem, heq⟩
    by_cases h0 : e0.1 = k0
    · rw [if_pos h0] at heq
      rw [← heq] at hek
      exact absurd hek hne
    · rw [if_neg h0] at heq
      exact heq ▸ h e0 hmem (heq ▸ hek)
  · rw [if_neg hs]
    intro e he hek
    rcases List.mem_append.mp he with hmem | hmem
    · exact h e hmem hek
    · simp at hmem
      subst hmem
      exact absurd hek hne

theorem isSome_dictSet (d : TopDict) (k0 k : List Char) (v0 : JVal)
    (h : (dictLookup d k).isSome) :
    (dictLookup (dictSet d k0 v0) k).isSome := by
  rw [dictLookup_dictSet]
  by_cases hk : k = k0 <;> simp [hk, h]

theorem keyAll_dictUpdate (d p : TopDict) (k : List Char) (v : JVal)
    (hk : ∀ e ∈ p, e.1 ≠ k) (h1 : keyAll d k v)
    (h2 : (dictLookup d k).isSome) :
    keyAll (dictUpdate d p) k v ∧
      (dictLookup (dictUpdate d p) k).isSome := by
  induction p generalizing d with
  | nil => exact ⟨h1, h2⟩
  | cons e rest ih =>
    have hstep : dictUpdate d (e :: rest) =
        dictUpdate (dictSet d e.1 e.2) rest := rfl
    rw [hstep]
    have hne : e.1 ≠ k := hk e (by simp)
    exact ih (dictSet d e.1 e.2)
      (fun e' he' => hk e' (by simp [he']))
      (keyAll_dictSet_other d e.1 k e.2 v hne h1)
      (isSome_dictSet d e.1 k e.2 h2)

theorem map_set_id (d : TopDict) (k : List Char) (v : JVal)
    (h1 : keyAll d k v) :
    d.map (fun e => if e.1 = k then (k, v) else e) = d := by
  induction d with
  | nil => rfl
  | cons e rest ih =>
    simp only [List.map_cons]
    congr 1
    · by_cases hek : e.1 = k
      · rw [if_pos hek]
        have h2 := h1 e (by simp) hek
        rcases e with ⟨e1, e2⟩
        simp only at hek h2
        rw [hek, h2]
      · rw [if_neg hek]
    · exact ih fun e' he' h' => h1 e' (by simp [he']) h'

theorem dictSet_noop (d : TopDict) (k : List Char) (v : JVal)
    (h1 : keyAll d k v) (h2 : (dictLookup d k).isSome) :
    dictSet d k v = d := by
  unfold dictSet
  rw [if_pos h2]
  exact map_set_id d k v h1

theorem dictUpdate_idem (d p : TopDict)
    (hp : (p.map Prod.fst).Nodup) :
    dictUpdate (dictUpdate d p) p = dictUpdate d p := by
  induction p generalizing d with
  | nil => rfl
  | cons e rest ih =>
    obtain ⟨k, v⟩ := e
    simp only [List.map_cons, List.nodup_cons] at hp
    have hknotin : ∀ e' ∈ rest, e'.1 ≠ k := fun e' he' hc =>
      hp.1 (hc ▸ List.mem_map_of_mem Prod.fst he')
    have hstep : ∀ d0 : TopDict, dictUpdate d0 ((k, v) :: rest) =
        dictUpdate (dictSet d0 k v) rest := fun _ => rfl
    rw [hstep, hstep]
    set D := dictUpdate (dictSet d k v) rest with hD
    have hall : keyAll D k v ∧ (dictLookup D k).isSome := by
      rw [hD]
      exact keyAll_dictUpdate (dictSet d k v) rest k v hknotin
        (keyAll_dictSet_same d k v)
        (by rw [dictLookup_dictSet]; simp)
    rw [dictSet_noop D k v hall.1 hall.2]
    exact ih (dictSet d k v) hp.2

/-! ### Claim theorems -/

/-- C8: `make_request` returns the decoded JSON body exactly when the HTTP
status is 200 (and the body decodes); every other status and every caught
exception (timeout, connection error, any other raised exception, including a
body-decode failure on a 200) produces the no-payload outcome `none`.  The
embedding is a total function into `Option`, so no fault crosses to the
caller as a thrown exception. -/
theorem claim_C8 (o : HttpOutcome) (j : JVal) :
    make_request o = some j ↔ o = HttpOutcome.httpResponse 200 (some j) := by
  cases o with
  | httpResponse st dec =>
    by_cases hst : st = 200
    · subst hst
      cases dec with
      | none => simp [make_request, handle_response]
      | some x => simp [make_request, handle_response]
    · cases dec <;> simp [make_request, handle_response, hst]
  | timeoutExn => simp [make_request]
  | transportExn => simp [make_request]
  | otherExn => simp [make_request]

/-- C10: when the value stored under the `card` key or the `deck` key of the
snapshot is not a dict, `get_cards` returns the empty list (`some []`, i.e.
the explicit `return []` of lines 144-148, not a raised exception) for every
filter string. -/
theorem claim_C10 (data : TopDict) (f : List Char)
    (h : isJDict (dictLookupD data cardKey (.jdict [])) = false ∨
         isJDict (dictLookupD data deckKey (.jdict [])) = false) :
    get_cards data f = some [] := by
  unfold get_cards
  cases hc : dictLookupD data cardKey (.jdict []) <;>
    cases hd : dictLookupD data deckKey (.jdict []) <;>
      simp_all [isJDict]

/-- Witness for C10: a snapshot whose `card` entry is a list (as after a
malformed mirror load). -/
def dataC10w : TopDict := [(cardKey, .jarr [.jstr ['x']])]

theorem claim_C10_witness : get_cards dataC10w ['a'] = some [] :=
  claim_C10 dataC10w ['a'] (Or.inl (by decide))

/-- The `card` sub-dict of a snapshot (for inspecting merge effects). -/
def cardsIn (d : TopDict) : TopDict :=
  match dictLookupD d cardKey (.jdict []) with
  | .jdict cs => cs
  | _ => []

def vA : JVal := .jdict [(titleKey, .jstr ['o', 'l', 'd', 'A'])]

def vB : JVal := .jdict [(titleKey, .jstr ['o', 'l', 'd', 'B'])]

def vA2 : JVal := .jdict [(titleKey, .jstr ['n', 'e', 'w', 'A'])]

/-- Pre-merge snapshot for the C2 counterexample: two cards `A` and `B`. -/
def stateC2 : BotState :=
  { data := [(cardKey, .jdict [(['A'], vA), (['B'], vB)])],
    last_update := 0, mirror := none }

/-- `fetch_cards` payload mentioning only card `A`. -/
def respC2 : Option JVal := some (.jdict [(cardKey, .jdict [(['A'], vA2)])])

/-- C2 counterexample: the merge `self.data.update(response)` is a *top-level*
dict update, so the payload's `card` entry replaces the snapshot's whole
`card` mapping.  Card `B` is not in the returned payload, yet after the merge
it does not keep its field values — its entry is gone entirely. -/
theorem claim_C2_counterexample :
    dictLookup (cardsIn stateC2.data) ['B'] = some vB ∧
    get_card_data stateC2 respC2 =
      ({ stateC2 with
          data := [(cardKey, .jdict [(['A'], vA2)])] }, true) ∧
    dictLookup (cardsIn (get_card_data stateC2 respC2).1.data) ['B'] =
      none := by
  refine ⟨by decide, by decide, by decide⟩

/-- C2 (amended): the merge is an insert-or-replace at the *top level* of the
snapshot, keyed by entity-type key: after `get_card_data` succeeds on a dict
payload `p`, every top-level key present in `p` maps to `p`'s value and every
other top-level key keeps its pre-merge value; `last_update` and the mirror
are untouched.  In particular the `card` entry — the whole cards mapping — is
replaced wholesale when `p` carries one, so individual cards absent from the
payload's mapping do not survive (see the counterexample). -/
theorem claim_C2_amended (s : BotState) (p : TopDict) (k : List Char)
    (hp : (p.map Prod.fst).Nodup) :
    get_card_data s (some (.jdict p)) =
      ({ s with data := dictUpdate s.data p }, true) ∧
    dictLookup (dictUpdate s.data p) k =
      optOr (dictLookup p k) (dictLookup s.data k) := by
  constructor
  · unfold get_card_data
    cases p with
    | nil => simp [jTruthy, dictUpdate]
    | cons e rest => simp [jTruthy]
  · exact dictLookup_dictUpdate s.data p k hp

theorem claim_C2_amended_witness :
    get_card_data stateC2 respC2 =
      ({ stateC2 with
          data := dictUpdate stateC2.data [(cardKey, .jdict [(['A'], vA2)])] },
        true) ∧
    dictLookup (dictUpdate stateC2.data [(cardKey, .jdict [(['A'], vA2)])])
        cardKey =
      optOr (dictLookup [(cardKey, .jdict [(['A'], vA2)])] cardKey)
        (dictLookup stateC2.data cardKey) :=
  claim_C2_amended stateC2 [(cardKey, .jdict [(['A'], vA2)])] cardKey
    (by decide)

/-- C6: merging the same card payload twice produces the same snapshot as
merging it once — `get_card_data` is idempotent on the cache state for every
response (for dict payloads because Python dict update is idempotent, and
trivially on the no-payload, falsy and raising paths). -/
theorem claim_C6 (s : BotState) (r : Option JVal)
    (hp : ∀ p, r = some (.jdict p) → (p.map Prod.fst).Nodup) :
    (get_card_data (get_card_data s r).1 r).1 = (get_card_data s r).1 := by
  cases r with
  | none => rfl
  | some v =>
    unfold get_card_data
    by_cases ht : jTruthy v = true
    · cases v with
      | jdict p =>
        simp only [ht, if_pos]
        exact congrArg (fun d => BotState.mk d s.last_update s.mirror)
          (dictUpdate_idem s.data p (hp p rfl))
      | jnull => simp [ht]
      | jbool b => simp [ht]
      | jnum n => simp [ht]
      | jstr c => simp [ht]
      | jarr xs => simp [ht]
    · simp [ht]

theorem claim_C6_witness :
    (get_card_data (get_card_data stateC2 respC2).1 respC2).1 =
      (get_card_data stateC2 respC2).1 :=
  claim_C6 stateC2 respC2 (fun p h => by
    simp only [respC2, Option.some.injEq, JVal.jdict.injEq] at h
    subst h
    decide)

/-! ### `get_cards` characterization (C7) -/

/-- Python `isinstance(x, str)`. -/
def isJStr : JVal → Bool
  | .jstr _ => true
  | _ => false

/-- The deck-filter condition of line 153:
`deck_id.lower() in deck_info.get("title", "").lower()` (false when the
evaluation would raise, which cannot happen on a successful `get_cards`). -/
def deckMatches (f : List Char) (di : JVal) : Bool :=
  match di with
  | .jdict d =>
      match dictLookupD d titleKey (.jstr []) with
      | .jstr t => isSubstr (pyLower f) (pyLower t)
      | _ => false
  | _ => false

/-- `deck_info.get("id")` (line 151). -/
def deckIdOf (di : JVal) : JVal :=
  match di with
  | .jdict d => dictLookupD d idKey .jnull
  | _ => .jnull

/-- `card_info.get("deckId")` (line 159). -/
def cardDeckIdOf (ci : JVal) : JVal :=
  match ci with
  | .jdict d => dictLookupD d deckIdKey .jnull
  | _ => .jnull

/-- A deck value on which line 153 evaluates without raising: a dict whose
title (defaulting to `""`) is a string. -/
def deckWF : JVal → Bool
  | .jdict d => isJStr (dictLookupD d titleKey (.jstr []))
  | _ => false

theorem isSubstr_nil (s : List Char) : isSubstr [] s = true := by
  cases s with
  | nil => rfl
  | cons c rest => simp [isSubstr, listStarts]

theorem deckMatches_nil (di : JVal) (h : deckWF di = true) :
    deckMatches [] di = true := by
  cases di with
  | jdict d =>
    simp only [deckWF] at h
    simp only [deckMatches]
    cases ht : dictLookupD d titleKey (.jstr []) with
    | jstr t => simp [pyLower, isSubstr_nil]
    | jnull => rw [ht] at h; simp [isJStr] at h
    | jbool b => rw [ht] at h; simp [isJStr] at h
    | jnum n => rw [ht] at h; simp [isJStr] at h
    | jarr xs => rw [ht] at h; simp [isJStr] at h
    | jdict es => rw [ht] at h; simp [isJStr] at h
  | jnull => simp [deckWF] at h
  | jbool b => simp [deckWF] at h
  | jnum n => simp [deckWF] at h
  | jstr s => simp [deckWF] at h
  | jarr xs => simp [deckWF] at h

theorem matchingDecks_spec (f : List Char) (vs : List JVal)
    (mds : List JVal) (h : matchingDecks f vs = some mds) :
    mds = vs.filterMap
        (fun di => if deckMatches f di then some (deckIdOf di) else none) ∧
    ∀ di ∈ vs, deckWF di = true := by
  set g : JVal → Option JVal :=
    fun di => if deckMatches f di then some (deckIdOf di) else none with hgdef
  induction vs generalizing mds with
  | nil =>
    simp only [matchingDecks, Option.some.injEq] at h
    refine ⟨by rw [← h]; rfl, by intro di hdi; cases hdi⟩
  | cons di rest ih =>
    cases di with
    | jdict d =>
      simp only [matchingDecks, jGetD] at h
      cases hts : dictLookupD d titleKey (.jstr []) with
      | jstr t =>
        rw [hts] at h
        simp only [asStr] at h
        by_cases hm : isSubstr (pyLower f) (pyLower t) = true
        · rw [if_pos hm] at h
          cases hrest : matchingDecks f rest with
          | none => rw [hrest] at h; cases h
          | some rest' =>
            rw [hrest] at h
            simp only [Option.some.injEq] at h
            obtain ⟨h1, h2⟩ := ih rest' hrest
            constructor
            · rw [← h]
              have hdm : deckMatches f (.jdict d) = true := by
                simp only [deckMatches, hts]
                exact hm
              have hg : g (JVal.jdict d) =
                  some (dictLookupD d idKey .jnull) := by
                rw [hgdef]
                simp [hdm, deckIdOf]
              rw [List.filterMap_cons_some hg, h1]
            · intro di' hdi'
              rcases List.mem_cons.mp hdi' with rfl | hmem
              · simp [deckWF, hts, isJStr]
              · exact h2 di' hmem
        · rw [if_neg hm] at h
          obtain ⟨h1, h2⟩ := ih mds h
          constructor
          · rw [h1]
            have hdm : deckMatches f (.jdict d) = false := by
              simp only [deckMatches, hts]
              exact Bool.eq_false_iff.mpr hm
            have hg : g (JVal.jdict d) = none := by
              rw [hgdef]
              simp [hdm]
            rw [List.filterMap_cons_none hg]
          · intro di' hdi'
            rcases List.mem_cons.mp hdi' with rfl | hmem
            · simp [deckWF, hts, isJStr]
            · exact h2 di' hmem
      | jnull => rw [hts] at h; simp [asStr] at h
      | jbool b => rw [hts] at h; simp [asStr] at h
      | jnum n => rw [hts] at h; simp [asStr] at h
      | jarr xs => rw [hts] at h; simp [asStr] at h
      | jdict es => rw [hts] at h; simp [asStr] at h
    | jnull => simp [matchingDecks, jGetD] at h
    | jbool b => simp [matchingDecks, jGetD] at h
    | jnum n => simp [matchingDecks, jGetD] at h
    | jstr s => simp [matchingDecks, jGetD] at h
    | jarr xs => simp [matchingDecks, jGetD] at h

theorem matchingCards_spec (mds : List JVal) (vs : List JVal)
    (out : List JVal) (h : matchingCards mds vs = some out) :
    out = vs.filter
        (fun ci => mds.any (fun x => jvalBEq (cardDeckIdOf ci) x)) := by
  induction vs generalizing out with
  | nil =>
    simp only [matchingCards, Option.some.injEq] at h
    rw [← h]
    rfl
  | cons ci rest ih =>
    cases ci with
    | jdict d =>
      simp only [matchingCards, jGetD] at h
      by_cases hin :
          mds.any (fun x => jvalBEq (dictLookupD d deckIdKey .jnull) x) = true
      · rw [if_pos hin] at h
        cases hrest : matchingCards mds rest with
        | none => rw [hrest] at h; cases h
        | some rest' =>
          rw [hrest] at h
          simp only [Option.some.injEq] at h
          rw [← h, List.filter_cons]
          have hpred : (mds.any fun x =>
              jvalBEq (cardDeckIdOf (JVal.jdict d)) x) = true := by
            simpa [cardDeckIdOf] using hin
          simp [hpred, ih rest' hrest]
      · rw [if_neg hin] at h
        rw [ih out h, List.filter_cons]
        have hpred : (mds.any fun x =>
            jvalBEq (cardDeckIdOf (JVal.jdict d)) x) = false := by
          simp only [cardDeckIdOf]
          exact Bool.eq_false_iff.mpr hin
        simp [hpred]
    | jnull => simp [matchingCards, jGetD] at h
    | jbool b => simp [matchingCards, jGetD] at h
    | jnum n => simp [matchingCards, jGetD] at h
    | jstr s => simp [matchingCards, jGetD] at h
    | jarr xs => simp [matchingCards, jGetD] at h

theorem get_cards_nondict (data : TopDict) (f : List Char)
    (h : isJDict (dictLookupD data cardKey (.jdict [])) = false ∨
         isJDict (dictLookupD data deckKey (.jdict [])) = false) :
    get_cards data f = some [] := by
  unfold get_cards
  cases hc : dictLookupD data cardKey (.jdict []) <;>
    cases hd : dictLookupD data deckKey (.jdict []) <;>
      simp_all [isJDict]

/-- C7: on a successful call, `get_cards data f` returns exactly the cards of
the snapshot whose `deckId` equals the `id` of some deck whose title contains
`f` as a case-insensitive substring; and for the empty filter the title
condition disappears (the empty string is a substring of every title), so
`get_cards data ""` returns exactly the union of all decks' cards. -/
theorem claim_C7 (data : TopDict) (f : List Char) (out : List JVal)
    (h : get_cards data f = some out) :
    (∀ c, c ∈ out ↔
      (∃ cs, dictLookupD data cardKey (.jdict []) = .jdict cs ∧
        c ∈ cs.map Prod.snd ∧
        ∃ ds, dictLookupD data deckKey (.jdict []) = .jdict ds ∧
        ∃ di ∈ ds.map Prod.snd,
          deckMatches f di = true ∧ cardDeckIdOf c = deckIdOf di)) ∧
    (f = [] → ∀ c, c ∈ out ↔
      (∃ cs, dictLookupD data cardKey (.jdict []) = .jdict cs ∧
        c ∈ cs.map Prod.snd ∧
        ∃ ds, dictLookupD data deckKey (.jdict []) = .jdict ds ∧
        ∃ di ∈ ds.map Prod.snd, cardDeckIdOf c = deckIdOf di)) := by
  simp only [get_cards] at h
  cases hc : dictLookupD data cardKey (.jdict []) with
  | jdict cs =>
    cases hd : dictLookupD data deckKey (.jdict []) with
    | jdict ds =>
      rw [hc, hd] at h
      replace h : (match matchingDecks f (ds.map Prod.snd) with
          | none => none
          | some mds => matchingCards mds (cs.map Prod.snd)) = some out := h
      cases hmd : matchingDecks f (ds.map Prod.snd) with
      | none => rw [hmd] at h; cases h
      | some mds =>
        rw [hmd] at h
        obtain ⟨hmds, hwf⟩ := matchingDecks_spec f _ mds hmd
        have hout := matchingCards_spec mds _ out h
        have hpredIff : ∀ c : JVal,
            (mds.any fun x => jvalBEq (cardDeckIdOf c) x) = true ↔
            (∃ di ∈ ds.map Prod.snd,
              deckMatches f di = true ∧ cardDeckIdOf c = deckIdOf di) := by
          intro c
          rw [List.any_eq_true]
          constructor
          · rintro ⟨x, hxmem, hbeq⟩
            have hxeq := (jvalBEq_iff _ _).mp hbeq
            rw [hmds, List.mem_filterMap] at hxmem
            obtain ⟨di, hdimem, hdi⟩ := hxmem
            by_cases hdm : deckMatches f di = true
            · rw [if_pos hdm] at hdi
              injection hdi with hdi
              exact ⟨di, hdimem, hdm, by rw [hxeq, ← hdi]⟩
            · rw [if_neg hdm] at hdi; cases hdi
          · rintro ⟨di, hdimem, hdm, heq⟩
            refine ⟨deckIdOf di, ?_, (jvalBEq_iff _ _).mpr heq⟩
            rw [hmds, List.mem_filterMap]
            exact ⟨di, hdimem, by rw [if_pos hdm]⟩
        constructor
        · intro c
          rw [hout, List.mem_filter]
          simp only [JVal.jdict.injEq, exists_eq_left']
          exact and_congr_right fun _ => hpredIff c
        · intro hf c
          subst hf
          rw [hout, List.mem_filter]
          simp only [JVal.jdict.injEq, exists_eq_left']
          refine and_congr_right fun _ => ?_
          rw [hpredIff c]
          constructor
          · rintro ⟨di, hdimem, _, heq⟩
            exact ⟨di, hdimem, heq⟩
          · rintro ⟨di, hdimem, heq⟩
            exact ⟨di, hdimem, deckMatches_nil di (hwf di hdimem), heq⟩
    | jnull =>
      rw [hc, hd] at h
      replace h : (some [] : Option (List JVal)) = some out := h
      have hout : out = [] := (Option.some.inj h).symm
      subst hout
      exact ⟨fun c => by simp [hd], fun _ c => by simp [hd]⟩
    | jbool b =>
      rw [hc, hd] at h
      replace h : (some [] : Option (List JVal)) = some out := h
      have hout : out = [] := (Option.some.inj h).symm
      subst hout
      exact ⟨fun c => by simp [hd], fun _ c => by simp [hd]⟩
    | jnum n =>
      rw [hc, hd] at h
      replace h : (some [] : Option (List JVal)) = some out := h
      have hout : out = [] := (Option.some.inj h).symm
      subst hout
      exact ⟨fun c => by simp [hd], fun _ c => by simp [hd]⟩
    | jstr s =>
      rw [hc, hd] at h
      replace h : (some [] : Option (List JVal)) = some out := h
      have hout : out = [] := (Option.some.inj h).symm
      subst hout
      exact ⟨fun c => by simp [hd], fun _ c => by simp [hd]⟩
    | jarr xs =>
      rw [hc, hd] at h
      replace h : (some [] : Option (List JVal)) = some out := h
      have hout : out = [] := (Option.some.inj h).symm
      subst hout
      exact ⟨fun c => by simp [hd], fun _ c => by simp [hd]⟩
  | jnull =>
    rw [hc] at h
    replace h : (some [] : Option (List JVal)) = some out := h
    have hout : out = [] := (Option.some.inj h).symm
    subst hout
    exact ⟨fun c => by simp [hc], fun _ c => by simp [hc]⟩
  | jbool b =>
    rw [hc] at h
    replace h : (some [] : Option (List JVal)) = some out := h
    have hout : out = [] := (Option.some.inj h).symm
    subst hout
    exact ⟨fun c => by simp [hc], fun _ c => by simp [hc]⟩
  | jnum n =>
    rw [hc] at h
    replace h : (some [] : Option (List JVal)) = some out := h
    have hout : out = [] := (Option.some.inj h).symm
    subst hout
    exact ⟨fun c => by simp [hc], fun _ c => by simp [hc]⟩
  | jstr s =>
    rw [hc] at h
    replace h : (some [] : Option (List JVal)) = some out := h
    have hout : out = [] := (Option.some.inj h).symm
    subst hout
    exact ⟨fun c => by simp [hc], fun _ c => by simp [hc]⟩
  | jarr xs =>
    rw [hc] at h
    replace h : (some [] : Option (List JVal)) = some out := h
    have hout : out = [] := (Option.some.inj h).symm
    subst hout
    exact ⟨fun c => by simp [hc], fun _ c => by simp [hc]⟩

/-! ### Refresh-cycle lemmas (C1, C3) -/

/-- Clock discipline for a sequence of cycles: each cycle's "now" is at least
the initial `last_update` and the "now" values are non-decreasing (real time
moves forward). -/
def clockOk : Int → List CycleEnv → Bool
  | _, [] => true
  | t, e :: rest => decide (t ≤ e.now1) && clockOk e.now1 rest

theorem clockOk_mono {a b : Int} {l : List CycleEnv} (hab : a ≤ b)
    (h : clockOk b l = true) : clockOk a l = true := by
  cases l with
  | nil => rfl
  | cons e rest =>
    simp only [clockOk, Bool.and_eq_true, decide_eq_true_eq] at h ⊢
    exact ⟨le_trans hab h.1, h.2⟩

theorem get_card_data_fields (s : BotState) (r : Option JVal) :
    (get_card_data s r).1.last_update = s.last_update ∧
    (get_card_data s r).1.mirror = s.mirror := by
  unfold get_card_data
  cases r with
  | none => exact ⟨rfl, rfl⟩
  | some v =>
    by_cases ht : jTruthy v = true
    · cases v <;> simp [ht]
    · simp [ht]

theorem cycle_truthy_state (s : BotState) (env : CycleEnv) (r : JVal)
    (hr : env.historyResp = some r) (ht : jTruthy r = true) :
    (get_history_data s env).1.last_update = env.now1 ∧
    (get_history_data s env).1.mirror = s.mirror := by
  have hgcd :=
    get_card_data_fields { s with last_update := env.now1 } env.cardsResp
  unfold get_history_data
  rw [hr]
  simp only [ht, if_true]
  cases r with
  | jdict rd =>
    cases hact : dictLookupD rd activityKey (.jarr []) with
    | jarr acts =>
      simp only [hact]
      by_cases hlen : 0 < acts.length
      · simp only [hlen, if_true]
        cases hac : activityCards acts with
        | some ids => simp only [hac]; exact ⟨hgcd.1, hgcd.2⟩
        | none => simp [hac]
      · simp [hlen]
    | jnull => simp [hact, pyLen]
    | jbool b => simp [hact, pyLen]
    | jnum n => simp [hact, pyLen]
    | jstr c =>
      simp only [hact, pyLen]
      split <;> simp
    | jdict es =>
      simp only [hact, pyLen]
      split <;> simp
  | jnull => exact ⟨rfl, rfl⟩
  | jbool b => exact ⟨rfl, rfl⟩
  | jnum n => exact ⟨rfl, rfl⟩
  | jstr c => exact ⟨rfl, rfl⟩
  | jarr xs => exact ⟨rfl, rfl⟩

theorem cycle_bound (s : BotState) (env : CycleEnv)
    (h : s.last_update ≤ env.now1) :
    s.last_update ≤ (get_history_data s env).1.last_update ∧
    (get_history_data s env).1.last_update ≤ env.now1 := by
  cases hr : env.historyResp with
  | none =>
    have : get_history_data s env = (s, true) := by
      unfold get_history_data; rw [hr]
    rw [this]
    exact ⟨le_refl _, h⟩
  | some r =>
    by_cases ht : jTruthy r = true
    · have := (cycle_truthy_state s env r hr ht).1
      rw [this]
      exact ⟨h, le_refl _⟩
    · have : get_history_data s env = (s, true) := by
        unfold get_history_data
        rw [hr]
        simp [ht]
      rw [this]
      exact ⟨le_refl _, h⟩

theorem runCycles_mono (s : BotState) (envs : List CycleEnv)
    (h : clockOk s.last_update envs = true) :
    s.last_update ≤ (runCycles s envs).last_update := by
  induction envs generalizing s with
  | nil => exact le_refl _
  | cons env rest ih =>
    simp only [clockOk, Bool.and_eq_true, decide_eq_true_eq] at h
    obtain ⟨hb1, hb2⟩ := cycle_bound s env h.1
    unfold runCycles
    cases hgh : get_history_data s env with
    | mk s' ok =>
      rw [hgh] at hb1 hb2
      cases ok with
      | true =>
        simp only
        exact le_trans hb1 (ih s' (clockOk_mono hb2 h.2))
      | false => exact hb1

/-- Initial state and cycle environment for the C1 counterexample: the
history fetch succeeds with one activity, while the subsequent card fetch
fails (`cardsResp = none`). -/
def s0C1 : BotState := { data := [], last_update := 0, mirror := none }

def envC1 : CycleEnv :=
  { historyResp := some (.jdict
      [(activityKey, .jarr [.jdict [(cardKey, .jstr ['c', '1'])]])]),
    cardsResp := none, now1 := 5 }

/-- C1 counterexample: the cycle whose `fetch_cards` fails does *not* leave
`last_update` unchanged — the source advances `last_update` on lines 116-120,
immediately after the truthy history response and before any card fetch, so
the failed-merge cycle still advances it (from 0 to 5 here) and the missed
window is not re-requested. -/
theorem claim_C1_counterexample :
    envC1.cardsResp = none ∧
    get_history_data s0C1 envC1 = ({ s0C1 with last_update := 5 }, true) ∧
    (get_history_data s0C1 envC1).1.last_update ≠ s0C1.last_update := by
  refine ⟨rfl, by decide, by decide⟩

/-- C1 (amended): under a forward-moving clock, `last_update` is
non-decreasing across every sequence of refresh cycles, and a cycle leaves
`last_update` and the snapshot unchanged when `fetch_history` fails (returns
no payload, or a falsy one); but `last_update` is advanced to "now" by
*every* cycle whose `fetch_history` returns a truthy payload — the advance
happens before `fetch_cards` is attempted, so a `fetch_cards` failure does
not prevent it (see the counterexample). -/
theorem claim_C1_amended (s : BotState) (envs : List CycleEnv)
    (env : CycleEnv) (hclock : clockOk s.last_update envs = true) :
    s.last_update ≤ (runCycles s envs).last_update ∧
    (env.historyResp = none → get_history_data s env = (s, true)) ∧
    (∀ r, env.historyResp = some r → jTruthy r = false →
        get_history_data s env = (s, true)) ∧
    (∀ r, env.historyResp = some r → jTruthy r = true →
        (get_history_data s env).1.last_update = env.now1) := by
  refine ⟨runCycles_mono s envs hclock, ?_, ?_, ?_⟩
  · intro h
    unfold get_history_data
    rw [h]
  · intro r hr hf
    unfold get_history_data
    rw [hr]
    simp [hf]
  · intro r hr ht
    exact (cycle_truthy_state s env r hr ht).1

theorem claim_C1_amended_witness :
    s0C1.last_update ≤ (runCycles s0C1 [envC1]).last_update ∧
    (get_history_data s0C1 envC1).1.last_update = envC1.now1 := by
  have h := claim_C1_amended s0C1 [envC1] envC1 (by decide)
  exact ⟨h.1, h.2.2.2 _ rfl (by decide)⟩

/-- State and environments for the C3 divergence. -/
def s0C3 : BotState :=
  { data := [(cardKey, .jdict [(['A'], vA)])],
    last_update := 3,
    mirror := some ([(cardKey, .jdict [(['A'], vA)])], 3) }

/-- A cycle with one activity whose card fetch succeeds: the merge mutates
the snapshot. -/
def envC3merge : CycleEnv :=
  { historyResp := some (.jdict
      [(activityKey, .jarr [.jdict [(cardKey, .jstr ['A'])]])]),
    cardsResp := some (.jdict [(cardKey, .jdict [(['A'], vA2)])]),
    now1 := 9 }

/-- A successful cycle with zero activity records (truthy response without an
`activity` list). -/
def envC3zero : CycleEnv :=
  { historyResp := some (.jdict [(['o', 'k'], .jnum 1)]),
    cardsResp := none, now1 := 7 }

/-- C3 (code bug): the on-disk mirror is *never* rewritten by a refresh
cycle.  On the merge path the snapshot is mutated and `last_update`
advanced, but line 103 evaluates `self.save_project()` without `await`, so
the coroutine is created and discarded and the save never runs (Python even
warns "coroutine ... was never awaited"); on the zero-activity path
`last_update` is advanced and no save is attempted at all.  `save_project`
itself (lines 50-70, used awaited during bootstrap) would have rewritten the
mirror, as the last conjunct shows. -/
theorem claim_C3_codebug :
    (get_history_data s0C3 envC3merge).2 = true ∧
    (get_history_data s0C3 envC3merge).1.data ≠ s0C3.data ∧
    (get_history_data s0C3 envC3merge).1.last_update = 9 ∧
    (get_history_data s0C3 envC3merge).1.mirror = s0C3.mirror ∧
    get_history_data s0C3 envC3zero = ({ s0C3 with last_update := 7 }, true) ∧
    (save_project (get_history_data s0C3 envC3merge).1).mirror ≠
      s0C3.mirror := by
  refine ⟨by decide, by decide, by decide, by decide, by decide, by decide⟩

/-- Scenario-A-like snapshot for the C7 witness: one deck `D1` titled
`Sprint`, one card `C1` owned by it. -/
def deckD1 : JVal :=
  .jdict [(idKey, .jstr ['D', '1']),
          (titleKey, .jstr ['S', 'p', 'r', 'i', 'n', 't'])]

def cardC1 : JVal :=
  .jdict [(titleKey, .jstr ['F', 'i', 'x']), (deckIdKey, .jstr ['D', '1'])]

def dataC7 : TopDict :=
  [(deckKey, .jdict [(['D', '1'], deckD1)]),
   (cardKey, .jdict [(['C', '1'], cardC1)])]

theorem claim_C7_witness :
    cardC1 ∈ ([cardC1] : List JVal) ↔
      (∃ cs, dictLookupD dataC7 cardKey (.jdict []) = JVal.jdict cs ∧
        cardC1 ∈ cs.map Prod.snd ∧
        ∃ ds, dictLookupD dataC7 deckKey (.jdict []) = JVal.jdict ds ∧
        ∃ di ∈ ds.map Prod.snd,
          deckMatches [] di = true ∧ cardDeckIdOf cardC1 = deckIdOf di) :=
  (claim_C7 dataC7 [] [cardC1] (by decide)).1 cardC1

/-! ### `get_due_cards` lemmas (C4, C5) -/

/-- The sort/filter key of lines 183 and 190:
`strptime(x["matches"][0], "[%d/%m/%y]")`; `none` when the evaluation would
raise. -/
def entryKey (e : DueEntry) : Option Int :=
  match e.matchList with
  | [] => none
  | m0 :: _ => strptimeTok m0

/-- Boolean "sorted ascending by first-match date" relation on entries. -/
def keyLeB (a b : DueEntry) : Bool :=
  match entryKey a, entryKey b with
  | some ka, some kb => decide (ka ≤ kb)
  | _, _ => false

/-- Boolean horizon test on an entry (lines 190-191). -/
def keyWithin (t : Int) (e : DueEntry) : Bool :=
  match entryKey e with
  | some k => decide (k ≤ t)
  | none => false

/-- `card.get("content", "")` as a string (lines 177 and 179); `none` when the
evaluation would raise. -/
def contentOf (c : JVal) : Option (List Char) :=
  match jGetD c contentKey (.jstr []) with
  | none => none
  | some v => asStr v

/-- Minimum of a list of timestamps (for the "earliest due-date match" the
claim speaks about). -/
def listMinI : List Int → Option Int
  | [] => none
  | x :: rest =>
      match listMinI rest with
      | none => some x
      | some m => some (min x m)

/-- The earliest date among all parsed due-date tokens of an entry. -/
def earliestKey (e : DueEntry) : Option Int :=
  listMinI (e.matchList.filterMap strptimeTok)

/-- Boolean "ascending by earliest date" relation. -/
def earliestLeB (a b : DueEntry) : Bool :=
  match earliestKey a, earliestKey b with
  | some ka, some kb => decide (ka ≤ kb)
  | _, _ => false

theorem dueEntries_spec (vs : List JVal) (es : List DueEntry)
    (h : dueEntries vs = some es) :
    ∀ e ∈ es, ∃ s, contentOf e.card = some s ∧
      dateFindall s = e.matchList ∧ e.matchList ≠ [] := by
  induction vs generalizing es with
  | nil =>
    simp only [dueEntries, Option.some.injEq] at h
    subst h
    intro e he
    cases he
  | cons c rest ih =>
    simp only [dueEntries] at h
    cases hg : jGetD c contentKey (.jstr []) with
    | none => simp only [hg] at h; cases h
    | some cv =>
      simp only [hg] at h
      cases hs : asStr cv with
      | none => simp only [hs] at h; cases h
      | some content =>
        simp only [hs] at h
        by_cases hemp : (dateFindall content).isEmpty = true
        · rw [if_pos hemp] at h
          exact ih es h
        · rw [if_neg hemp] at h
          cases hrest : dueEntries rest with
          | none => simp only [hrest] at h; cases h
          | some rest' =>
            simp only [hrest] at h
            simp only [Option.some.injEq] at h
            intro e he
            rw [← h] at he
            rcases List.mem_cons.mp he with rfl | hmem
            · refine ⟨content, by simp [contentOf, hg, hs], rfl, ?_⟩
              intro hnil
              have hnil' : dateFindall content = [] := hnil
              rw [hnil'] at hemp
              exact hemp rfl
            · exact ih rest' hrest e hmem

theorem keyedEntries_spec (es : List DueEntry) (ks : List (Int × DueEntry))
    (h : keyedEntries es = some ks) :
    ks.map Prod.snd = es ∧ ∀ p ∈ ks, entryKey p.2 = some p.1 := by
  induction es generalizing ks with
  | nil =>
    simp only [keyedEntries, Option.some.injEq] at h
    subst h
    exact ⟨rfl, by intro p hp; cases hp⟩
  | cons e rest ih =>
    simp only [keyedEntries] at h
    cases hm : e.matchList with
    | nil => simp only [hm] at h; cases h
    | cons m0 ms =>
      simp only [hm] at h
      cases hk : strptimeTok m0 with
      | none => simp only [hk] at h; cases h
      | some k =>
        simp only [hk] at h
        cases hrest : keyedEntries rest with
        | none => simp only [hrest] at h; cases h
        | some ks' =>
          simp only [hrest] at h
          simp only [Option.some.injEq] at h
          obtain ⟨ih1, ih2⟩ := ih ks' hrest
          rw [← h]
          refine ⟨by simp [ih1], ?_⟩
          intro p hp
          rcases List.mem_cons.mp hp with rfl | hmem
          · simp only [entryKey, hm, hk]
          · exact ih2 p hmem

theorem filter_map_exchange (l : List (Int × DueEntry)) (t : Int)
    (hinv : ∀ p ∈ l, entryKey p.2 = some p.1) :
    (l.filter fun a => decide (a.1 ≤ t)).map Prod.snd =
      (l.map Prod.snd).filter (keyWithin t) := by
  induction l with
  | nil => rfl
  | cons p rest ih
=>
    have hk := hinv p (by simp)
    have hrest : ∀ q ∈ rest, entryKey q.2 = some q.1 :=
      fun q hq => hinv q (by simp [hq])
    have hkw : keyWithin t p.2 = decide (p.1 ≤ t) := by
      simp [keyWithin, hk]
    simp only [List.filter_cons, List.map_cons]
    by_cases hle : p.1 ≤ t
    · simp [hle, hkw, ih hrest]
    · simp [hle, hkw, ih hrest]

theorem pairwise_keyLeB (l : List (Int × DueEntry))
    (hs : List.Pairwise dueLe l)
    (hinv : ∀ p ∈ l, entryKey p.2 = some p.1) :
    List.Pairwise (fun a b => keyLeB a b = true) (l.map Prod.snd) := by
  induction l with
  | nil => exact List.Pairwise.nil
  | cons p rest ih =>
    rcases List.pairwise_cons.mp hs with ⟨hhead, htail⟩
    simp only [List.map_cons]
    refine List.Pairwise.cons ?_
      (ih htail fun q hq => hinv q (by simp [hq]))
    intro y hy
    rcases List.mem_map.mp hy with ⟨q, hqmem, rfl⟩
    have h1 := hinv p (by simp)
    have h2 := hinv q (by simp [hqmem])
    have hle : p.1 ≤ q.1 := hhead q hqmem
    simp [keyLeB, h1, h2, hle]

theorem duePipeline_spec (data : TopDict) (ks : List (Int × DueEntry))
    (h : duePipeline data = some ks) :
    List.Pairwise dueLe ks ∧
    (∀ p ∈ ks, entryKey p.2 = some p.1) ∧
    (∀ p ∈ ks, ∃ s, contentOf p.2.card = some s ∧
      dateFindall s = p.2.matchList ∧ p.2.matchList ≠ []) := by
  unfold duePipeline at h
  cases hc : dictLookupD data cardKey (.jdict []) with
  | jdict cs =>
    rw [hc] at h
    replace h : (match dueEntries (cs.map Prod.snd) with
        | none => none
        | some es =>
          match keyedEntries es with
          | none => none
          | some ks0 => some (List.insertionSort dueLe ks0)) = some ks := h
    cases hes : dueEntries (cs.map Prod.snd) with
    | none => simp only [hes] at h; cases h
    | some es =>
      simp only [hes] at h
      cases hks : keyedEntries es with
      | none => simp only [hks] at h; cases h
      | some ks0 =>
        simp only [hks] at h
        simp only [Option.some.injEq] at h
        obtain ⟨hmap, hinv⟩ := keyedEntries_spec es ks0 hks
        have hes_spec := dueEntries_spec (cs.map Prod.snd) es hes
        have hmem : ∀ p ∈ ks, p ∈ ks0 := by
          intro p hp
          rw [← h] at hp
          exact (List.mem_insertionSort dueLe).mp hp
        refine ⟨?_, ?_, ?_⟩
        · rw [← h]
          exact List.sorted_insertionSort dueLe ks0
        · intro p hp
          exact hinv p (hmem p hp)
        · intro p hp
          exact hes_spec p.2 (hmap ▸ List.mem_map_of_mem Prod.snd (hmem p hp))
  | jnull =>
    rw [hc] at h
    replace h : (none : Option (List (Int × DueEntry))) = some ks := h
    cases h
  | jbool b =>
    rw [hc] at h
    replace h : (none : Option (List (Int × DueEntry))) = some ks := h
    cases h
  | jnum n =>
    rw [hc] at h
    replace h : (none : Option (List (Int × DueEntry))) = some ks := h
    cases h
  | jstr s =>
    rw [hc] at h
    replace h : (none : Option (List (Int × DueEntry))) = some ks := h
    cases h
  | jarr xs =>
    rw [hc] at h
    replace h : (none : Option (List (Int × DueEntry))) = some ks := h
    cases h

theorem get_due_cards_spec (data : TopDict) (N now : Int)
    (out : List DueEntry) (h : get_due_cards data N now = some out) :
    List.Pairwise (fun a b => keyLeB a b = true) out ∧
    ∀ e ∈ out, (entryKey e).isSome = true ∧
      ∃ s, contentOf e.card = some s ∧ dateFindall s = e.matchList ∧
        e.matchList ≠ [] := by
  unfold get_due_cards at h
  cases hp : duePipeline data with
  | none => simp only [hp] at h; cases h
  | some ks =>
    simp only [hp, Option.some.injEq] at h
    obtain ⟨hsort, hinv, hcont⟩ := duePipeline_spec data ks hp
    set fin := if 0 < N then
        ks.filter (fun a => decide (a.1 ≤ now + N * 86400)) else ks with hfin
    have hsub : List.Sublist fin ks := by
      rw [hfin]
      by_cases hN : 0 < N
      · rw [if_pos hN]
        exact List.filter_sublist ks
      · rw [if_neg hN]
    have hinv' : ∀ p ∈ fin, entryKey p.2 = some p.1 :=
      fun p hp' => hinv p (hsub.subset hp')
    have hsort' : List.Pairwise dueLe fin := List.Pairwise.sublist hsub hsort
    constructor
    · rw [← h]
      exact pairwise_keyLeB fin hsort' hinv'
    · intro e he
      rw [← h] at he
      rcases List.mem_map.mp he with ⟨p, hpmem, rfl⟩
      have hk := hinv' p hpmem
      exact ⟨by simp [hk], hcont p (hsub.subset hpmem)⟩

/-- Cards and entries for the C4/C5 counterexamples.  `tokA` parses to the
epoch (1970-01-01), `tokX` to one day later, `tokB` to 1999-12-31.
`contentY` contains `tokB` *before* `tokA`, so the textually first match is
the much later date. -/
def tokA : List Char := ['[', '0', '1', '/', '0', '1', '/', '7', '0', ']']

def tokB : List Char := ['[', '3', '1', '/', '1', '2', '/', '9', '9', ']']

def tokX : List Char := ['[', '0', '2', '/', '0', '1', '/', '7', '0', ']']

def contentX : List Char := tokX ++ ['x']

def contentY : List Char := tokB ++ [' '] ++ tokA

def cardX : JVal := .jdict [(contentKey, .jstr contentX)]

def cardY : JVal := .jdict [(contentKey, .jstr contentY)]

def dataC4 : TopDict :=
  [(cardKey, .jdict [(['X'], cardX), (['Y'], cardY)])]

def entryX : DueEntry := { card := cardX, matchList := [tokX] }

def entryY : DueEntry := { card := cardY, matchList := [tokB, tokA] }

def dataC5 : TopDict := [(cardKey, .jdict [(['Y'], cardY)])]

/-- C4 counterexample: the output of `get_due_cards` is *not* sorted
ascending by each card's earliest due-date match.  Card `Y`'s earliest match
is the epoch, earlier than card `X`'s earliest match (one day after the
epoch), yet `Y` comes last: the source sorts by `matches[0]`, the textually
first match (line 183), which for `Y` is 1999-12-31. -/
theorem claim_C4_counterexample :
    get_due_cards dataC4 0 0 = some [entryX, entryY] ∧
    earliestKey entryX = some 86400 ∧
    earliestKey entryY = some 0 ∧
    earliestLeB entryX entryY = false := by
  refine ⟨by decide, by decide, by decide, by decide⟩

/-- C4 (amended): the sequence returned by `get_due_cards` is sorted
ascending by the parse of each card's *textually first* due-date match
(`matches[0]`), not its earliest one; and every returned entry comes from a
card whose content has at least one `DATE_REGEX` match (its full, non-empty
match list), so a card with no matching token never appears. -/
theorem claim_C4_amended (data : TopDict) (N now : Int)
    (out : List DueEntry) (h : get_due_cards data N now = some out) :
    List.Pairwise (fun a b => keyLeB a b = true) out ∧
    ∀ e ∈ out, (entryKey e).isSome = true ∧
      ∃ s, contentOf e.card = some s ∧ dateFindall s = e.matchList ∧
        e.matchList ≠ [] :=
  get_due_cards_spec data N now out h

theorem claim_C4_amended_witness :
    List.Pairwise (fun a b => keyLeB a b = true) [entryX, entryY] ∧
    ((entryKey entryY).isSome = true ∧
      ∃ s, contentOf entryY.card = some s ∧
        dateFindall s = entryY.matchList ∧ entryY.matchList ≠ []) :=
  ⟨(claim_C4_amended dataC4 0 0 [entryX, entryY] (by decide)).1,
   (claim_C4_amended dataC4 0 0 [entryX, entryY] (by decide)).2 entryY
     (by simp)⟩

/-- C5 counterexample: with `days_ahead = 1` and `now` at the epoch, card
`Y` — a due-dated card whose *earliest* due date (the epoch) is well within
`now + 1 day` — is excluded, because the filter on line 190 tests
`matches[0]`, the textually first match (1999-12-31).  So the horizon does
not exclude exactly the cards whose earliest due date is after `now + N`
days. -/
theorem claim_C5_counterexample :
    get_due_cards dataC5 1 0 = some [] ∧
    get_due_cards dataC5 0 0 = some [entryY] ∧
    earliestKey entryY = some 0 ∧
    ((0 : Int) ≤ 0 + 1 * 86400) := by
  refine ⟨by decide, by decide, by decide, by decide⟩

/-- C5 (amended): for `N ≤ 0` the horizon filter is disabled — the result
equals the unfiltered (and `now`-independent) call; for `N > 0` the result is
exactly the unfiltered sorted sequence filtered to entries whose *textually
first* match parses to at most `now + N` days; and the result is in every
case still sorted ascending by that first-match key. -/
theorem claim_C5_amended (data : TopDict) (now N : Int) :
    (N ≤ 0 → get_due_cards data N now = get_due_cards data 0 0) ∧
    (0 < N → ∀ out0, get_due_cards data 0 0 = some out0 →
      get_due_cards data N now =
        some (out0.filter (keyWithin (now + N * 86400)))) ∧
    (∀ out, get_due_cards data N now = some out →
      List.Pairwise (fun a b => keyLeB a b = true) out) := by
  refine ⟨?_, ?_, ?_⟩
  · intro hN
    unfold get_due_cards
    cases hp : duePipeline data with
    | none => simp only [hp]
    | some ks =>
      simp only [hp]
      have h1 : ¬ (0 : Int) < N := by omega
      have h2 : ¬ (0 : Int) < (0 : Int) := by omega
      rw [if_neg h1, if_neg h2]
  · intro hN out0 h0
    unfold get_due_cards at h0 ⊢
    cases hp : duePipeline data with
    | none => simp only [hp] at h0; cases h0
    | some ks =>
      simp only [hp] at h0 ⊢
      have h2 : ¬ (0 : Int) < (0 : Int) := by omega
      rw [if_neg h2] at h0
      simp only [Option.some.injEq] at h0
      rw [if_pos hN]
      obtain ⟨-, hinv, -⟩ := duePipeline_spec data ks hp
      rw [filter_map_exchange ks (now + N * 86400) hinv, h0]
  · intro out h
    exact (get_due_cards_spec data N now out h).1

theorem claim_C5_amended_witness :
    get_due_cards dataC5 (-3) 11 = get_due_cards dataC5 0 0 ∧
    get_due_cards dataC5 1 0 =
      some ([entryY].filter (keyWithin (0 + 1 * 86400))) :=
  ⟨(claim_C5_amended dataC5 11 (-3)).1 (by decide),
   (claim_C5_amended dataC5 0 1).2.1 (by decide) [entryY] (by decide)⟩

/-- C9: for every interleaving of a read accessor with a merge cycle (at the
granularity of the source's lock-protected critical sections, which contain
no suspension point — see the model notes above `RWEvent`), the reader's
copied snapshot is either the complete pre-merge snapshot or the complete
post-merge snapshot; and if the copy step precedes the merge's lock-protected
install, the reader observes exactly the pre-merge snapshot, hence none of
the merge's new card values. -/
theorem claim_C9 (s p : TopDict) (tr : List RWEvent)
    (h : Shuffle writerProg readerProg tr) :
    (∀ obs, (execRW p s none tr).2 = some obs →
        obs = s ∨ obs = dictUpdate s p)
    ∧ (copyBeforeMerge tr = true → (execRW p s none tr).2 = some s) := by
  simp only [writerProg, readerProg] at h
  rcases shuffle_two_two h with h6 | h6 | h6 | h6 | h6 | h6 <;> subst h6 <;>
    constructor <;>
      simp [execRW, copyBeforeMerge]

/-- Witness for C9: the interleaving in which the reader runs entirely before
the merge install; it observes the pre-merge snapshot. -/
def sC9 : TopDict := [(cardKey, .jdict [(['A'], .jstr ['o','l','d'])])]

def pC9 : TopDict := [(cardKey, .jdict [(['A'], .jstr ['n','e','w'])])]

def trC9 : List RWEvent := [.copyEv, .computeEv, .fetchEv, .mergeEv]

theorem claim_C9_witness : (execRW pC9 sC9 none trC9).2 = some sC9 :=
  (claim_C9 sC9 pC9 trC9
    (Shuffle.right (Shuffle.right (Shuffle.left (Shuffle.left
      Shuffle.nil))))).2 (by decide)

end CodecksBot
